import Mathlib

/-
Verification development for the Kakao order system (src/main.py).

Python strings are modelled as `List Char`.  The helper functions of the
source file are translated one-to-one:

* `normalize_name`   (main.py:86-88)   — `name.replace(" ", "").strip()`
* `parse_order_text` (main.py:91-133)  — the order grammar
* `is_order_check_text` (main.py:136-152) — the lookup-command grammar
* `get_product_by_normalized_name` (main.py:208-222) — catalog matching
* `kakao_order`      (main.py:236-299) — the webhook handler (database
  state passed explicitly, the three tables as lists of rows)
* `show_products` stock row computation (main.py:336-342)
* `update_product`   (main.py:466-499) — admin partial update

Python's `str.strip()` strips the characters on which `str.isspace()` is
true; `isPySpace` lists exactly those code points.  The regex class `\d`
of the source is modelled as ASCII digits (`isDigitB`) and `\s` with the
same whitespace class as `strip`.  SQLite AUTOINCREMENT row ids are
modelled as `length + 1` (rows are never deleted in this program), and
the scan order of a SELECT is the insertion order of the list.
-/

namespace KakaoOrder

/-- Python `str.isspace()` / regex `\s` character class (code points). -/
def isPySpace (c : Char) : Bool :=
  decide (c.toNat = 0x20 ∨ (0x9 ≤ c.toNat ∧ c.toNat ≤ 0xd) ∨
    (0x1c ≤ c.toNat ∧ c.toNat ≤ 0x1f) ∨ c.toNat = 0x85 ∨ c.toNat = 0xa0 ∨
    c.toNat = 0x1680 ∨ (0x2000 ≤ c.toNat ∧ c.toNat ≤ 0x200a) ∨
    c.toNat = 0x2028 ∨ c.toNat = 0x2029 ∨ c.toNat = 0x202f ∨
    c.toNat = 0x205f ∨ c.toNat = 0x3000)

/-- Regex `\d`, modelled as the ASCII digits `'0'`..`'9'`. -/
def isDigitB (c : Char) : Bool :=
  decide (48 ≤ c.toNat ∧ c.toNat ≤ 57)

/-- Python `str.strip()`: drop leading and trailing whitespace. -/
def pyStrip (l : List Char) : List Char :=
  ((l.dropWhile isPySpace).reverse.dropWhile isPySpace).reverse

/-- `normalize_name` (main.py:86-88): `name.replace(" ", "").strip()`.
`replace(" ", "")` deletes every occurrence of the single character
U+0020, i.e. it filters out `' '`. -/
def normalize_name (name : List Char) : List Char :=
  pyStrip (name.filter (fun c => c != ' '))

/-- worker for `pySplit`; `cur` is the current token, reversed. -/
def pySplitAux : List Char → List Char → List (List Char)
  | [], cur => if cur = [] then [] else [cur.reverse]
  | c :: t, cur =>
    if isPySpace c then
      if cur = [] then pySplitAux t [] else cur.reverse :: pySplitAux t []
    else pySplitAux t (c :: cur)

/-- Python `str.split()` with no argument: split on whitespace runs,
producing no empty tokens. -/
def pySplit (l : List Char) : List (List Char) := pySplitAux l []

/-- Python substring test `pat in l`. -/
def containsSub (pat : List Char) : List Char → Bool
  | [] => pat.isEmpty
  | c :: t => pat.isPrefixOf (c :: t) || containsSub pat t

/-- Python `int` on a digit string (the digits are already validated). -/
def digitsVal (l : List Char) : Nat :=
  l.foldl (fun a c => a * 10 + (c.toNat - 48)) 0

/-- worker for `natDigits`; fuel-based so that it is structural. -/
def natDigitsAux : Nat → Nat → List Char → List Char
  | 0, _, acc => acc
  | fuel + 1, n, acc =>
    let d := Char.ofNat (48 + n % 10)
    if n < 10 then d :: acc else natDigitsAux fuel (n / 10) (d :: acc)

/-- Python `str` of a non-negative int: shortest decimal numeral. -/
def natDigits (n : Nat) : List Char := natDigitsAux (n + 1) n []

/-- Python `str` of an int (order totals may involve negative prices). -/
def intDigits (n : Int) : List Char :=
  if n < 0 then '-' :: natDigits n.natAbs else natDigits n.natAbs

/-- `re.search(r"(\d{4})", raw)` (main.py:105): the first (leftmost) run
of 4 consecutive digits. -/
def findPhone4 : List Char → Option (List Char)
  | c1 :: c2 :: c3 :: c4 :: rest =>
    if isDigitB c1 && isDigitB c2 && isDigitB c3 && isDigitB c4 then
      some [c1, c2, c3, c4]
    else findPhone4 (c2 :: c3 :: c4 :: rest)
  | _ => none

/-- shared tail analysis for the trailing-quantity pattern
`\s*개?\s*$`: the argument is the REVERSED string; strip the reversed
trailing whitespace, then one optional `'개'`, then whitespace again.
(Matching the pattern `(\d+)\s*개?\s*$` against a suffix forces this
decomposition: `'개'` can only be consumed by `개?`, whitespace only by
`\s*`, so the reversed scan is deterministic.) -/
def stripQtyTail (l : List Char) : List Char :=
  let r1 := l.dropWhile isPySpace
  match r1 with
  | c :: t => if c = '개' then t.dropWhile isPySpace else r1
  | [] => r1

/-- the digit group of `re.search(r"(\d+)\s*개?\s*$", raw)`
(main.py:111): the maximal digit run before the trailing
whitespace/`개` tail, `none` when the regex has no match. -/
def qtyDigits (raw : List Char) : Option (List Char) :=
  let d := (stripQtyTail raw.reverse).takeWhile isDigitB
  if d = [] then none else some d.reverse

/-- Python `raw.replace(phone4, "", 1)` (main.py:119): delete the first
occurrence of `pat` (here always nonempty). -/
def removeFirst (pat : List Char) : List Char → List Char
  | [] => []
  | c :: t =>
    if pat.isPrefixOf (c :: t) then (c :: t).drop pat.length
    else c :: removeFirst pat t

/-- `re.sub(rf"{quantity}\s*개?\s*$", "", temp)` (main.py:121-122):
delete the suffix consisting of the decimal numeral `strQ` followed by
the `\s*개?\s*` tail, if the string ends that way; otherwise keep the
string.  (Since `strQ` is all digits and the tail holds no digits, at
most one position can match a pattern anchored at the end.) -/
def subQtyEnd (strQ temp : List Char) : List Char :=
  let r2 := stripQtyTail temp.reverse
  if strQ.reverse.isPrefixOf r2 then (r2.drop strQ.length).reverse else temp

/-- `parse_order_text` (main.py:91-133).  Returns
`(phone4, product_candidate_normalized, quantity)` or `none`. -/
def parse_order_text (text : List Char) :
    Option (List Char × List Char × Nat) :=
  let raw := pyStrip text
  match findPhone4 raw with
  | none => none
  | some phone4 =>
    match qtyDigits raw with
    | none => none
    | some d =>
      let quantity := digitsVal d
      let temp1 := removeFirst phone4 raw
      let temp2 := subQtyEnd (natDigits quantity) temp1
      let temp3 := temp2.filter (fun c => c != '개')
      let temp4 := pyStrip temp3
      if temp4 = [] then none
      else some (phone4, normalize_name temp4, quantity)

/-- the literal confirmation keyword 주문확인. -/
def kwOrderConfirm : List Char := ['주', '문', '확', '인']

/-- the word-fragment 주문 ("order"). -/
def kwOrder : List Char := ['주', '문']

/-- the word-fragment 확인 ("confirm"). -/
def kwConfirm : List Char := ['확', '인']

/-- `is_order_check_text` (main.py:136-152). -/
def is_order_check_text (text : List Char) : Option (List Char) :=
  let raw := pyStrip text
  match pySplit raw with
  | [] => none
  | p0 :: rest =>
    if p0.length == 4 && p0.all isDigitB then
      let r := rest.flatten
      if containsSub kwOrderConfirm r ||
          (containsSub kwOrder r && containsSub kwConfirm r) then
        some p0
      else none
    else none

inductive Interp where
  | lookup (phone4 : List Char)
  | order (phone4 productCandidate : List Char) (quantity : Nat)
  | unrecognized
deriving DecidableEq

/-- `interpret`: the classification the webhook handler performs on the
utterance (main.py:239-258): the lookup check runs first and takes
precedence, then order parsing. -/
def interpret (utterance : List Char) : Interp :=
  let user_text := pyStrip utterance
  match is_order_check_text user_text with
  | some p4 => .lookup p4
  | none =>
    match parse_order_text user_text with
    | some (p4, cand, q) => .order p4 cand q
    | none => .unrecognized

/-- The lookup condition as claim C3 words it: split the input on
whitespace; require at least one token whose first token is exactly 4
digits (taken as phone4); the concatenation of the remaining tokens must
contain 주문확인, or both 주문 and 확인. -/
def specLookupB (text p4 : List Char) : Bool :=
  match pySplit text with
  | [] => false
  | t0 :: rest =>
    let r := rest.flatten
    t0 == p4 && t0.length == 4 && t0.all isDigitB &&
      (containsSub kwOrderConfirm r ||
        (containsSub kwOrder r && containsSub kwConfirm r))

/-- The product-candidate derivation as claim C2 words it: from the
trimmed text remove the first occurrence of phone4, then the trailing
quantity pattern EXACTLY AS MATCHED in step 2 — the matched digit run
`d`, including any leading zeros, plus the optional unit-word/whitespace
tail — then every remaining 개, then trim; empty remainder means
Unrecognized. -/
def candidateSpecC2 (text : List Char) : Option (List Char) :=
  let raw := pyStrip text
  match findPhone4 raw with
  | none => none
  | some phone4 =>
    match qtyDigits raw with
    | none => none
    | some d =>
      let temp1 := removeFirst phone4 raw
      let temp2 := subQtyEnd d temp1
      let temp3 := temp2.filter (fun c => c != '개')
      let temp4 := pyStrip temp3
      if temp4 = [] then none else some temp4

/-- The amended candidate derivation: as `candidateSpecC2`, except that
the string removed at the end is the decimal numeral of the PARSED
QUANTITY VALUE (leading zeros of the matched run dropped), which is what
`rf"{quantity}\s*개?\s*$"` rebuilds from the int `quantity`. -/
def candidateAmendedC2 (text : List Char) : Option (List Char) :=
  let raw := pyStrip text
  match findPhone4 raw with
  | none => none
  | some phone4 =>
    match qtyDigits raw with
    | none => none
    | some d =>
      let temp1 := removeFirst phone4 raw
      let temp2 := subQtyEnd (natDigits (digitsVal d)) temp1
      let temp3 := temp2.filter (fun c => c != '개')
      let temp4 := pyStrip temp3
      if temp4 = [] then none else some temp4

-- ------------------------------------------------------------------
-- data model: the three tables (main.py:28-58)
-- ------------------------------------------------------------------

structure Product where
  id : Nat
  name : List Char
  price : Int
  base_stock : Int
  is_active : Bool
deriving DecidableEq

structure OrderRow where
  id : Nat
  phone4 : List Char
  created_at : List Char
deriving DecidableEq

structure OrderItemRow where
  id : Nat
  order_id : Nat
  product_id : Nat
  quantity : Nat
  unit_price : Int
deriving DecidableEq

structure DB where
  products : List Product
  orders : List OrderRow
  order_items : List OrderItemRow
deriving DecidableEq

/-- `get_product_by_normalized_name` (main.py:208-222): scan the rows
with `is_active = 1` and return the first whose normalized name equals
the candidate. -/
def get_product_by_normalized_name (cand : List Char)
    (rows : List Product) : Option Product :=
  (rows.filter (fun r => r.is_active)).find?
    (fun r => normalize_name r.name == cand)

/-- help message for unparsable order text (main.py:250-255). -/
def helpMsg : List Char :=
  "주문 형식이 올바르지 않습니다.\n\n예시)\n1234 콜라제로 2\n전화번호뒷4자리 상품이름 수량".toList

/-- message when no active product matches (main.py:263-266). -/
def notFoundMsg : List Char :=
  "정확한 상품명을 찾을 수 없습니다.\n공지에 적힌 상품 이름을 그대로 입력해 주세요.".toList

/-- "no orders yet" message (main.py:191). -/
def noOrdersMsg (phone4 : List Char) : List Char :=
  phone4 ++ " 번호로 된 주문이 아직 없습니다.".toList

/-- join with newlines, Python "\n".join. -/
def joinNl : List (List Char) → List Char
  | [] => []
  | x :: t => x ++ t.flatMap (fun y => '\n' :: y)

/-- the joined rows of `build_order_summary_text` (main.py:175-187):
orders of this phone4 joined with their items and product names,
`ORDER BY created_at DESC, id DESC LIMIT 50`.  In this program
`created_at` is nondecreasing in insertion order and ids increase, so
the ordering is modelled as reversed insertion order. -/
def summaryJoinedRows (db : DB) (phone4 : List Char) :
    List (List Char × List Char × Nat × Int) :=
  (((db.orders.filter (fun o => o.phone4 == phone4)).reverse).flatMap
    (fun o => (db.order_items.filter (fun i => i.order_id == o.id)).filterMap
      (fun i => (db.products.find? (fun p => p.id == i.product_id)).map
        (fun p => (o.created_at, p.name, i.quantity, i.unit_price))))).take 50

/-- `build_order_summary_text` (main.py:171-205). -/
def build_order_summary_text (db : DB) (phone4 : List Char) : List Char :=
  let rows := summaryJoinedRows db phone4
  if rows = [] then noOrdersMsg phone4
  else
    let header := "[".toList ++ phone4 ++ "님의 최근 주문 목록]".toList
    let lines := rows.map (fun r =>
      "- ".toList ++ r.1 ++ " | ".toList ++ r.2.1 ++ " x".toList ++
        natDigits r.2.2.1 ++ "개 = ".toList ++
        intDigits ((r.2.2.1 : Int) * r.2.2.2) ++ "원".toList)
    let total := rows.foldl (fun a r => a + (r.2.2.1 : Int) * r.2.2.2) 0
    joinNl ((header :: lines) ++
      ["\n최근 50건 기준 합계: ".toList ++ intDigits total ++ "원".toList])

/-- order confirmation reply (main.py:290-298). -/
def orderReply (phone4 prodName : List Char) (quantity : Nat)
    (total : Int) : List Char :=
  "[주문 완료]\n번호: ".toList ++ phone4 ++ "\n상품: ".toList ++ prodName ++
    "\n수량: ".toList ++ natDigits quantity ++ "개\n금액: ".toList ++
    intDigits total ++ "원\n\n".toList ++ phone4 ++
    " 주문확인 을 보내면 지금까지 주문 목록을 볼 수 있어요.".toList

/-- `kakao_order` (main.py:236-299): the webhook handler.  Takes the
database state and the timestamp `now` explicitly; returns the new
state and the reply text. -/
def kakao_order (db : DB) (now utterance : List Char) :
    DB × List Char :=
  let user_text := pyStrip utterance
  match is_order_check_text user_text with
  | some p4 => (db, build_order_summary_text db p4)
  | none =>
    match parse_order_text user_text with
    | none => (db, helpMsg)
    | some (phone4, cand, quantity) =>
      match get_product_by_normalized_name cand db.products with
      | none => (db, notFoundMsg)
      | some product =>
        let order_id := db.orders.length + 1
        let item_id := db.order_items.length + 1
        let db2 : DB := { db with
          orders := db.orders ++ [⟨order_id, phone4, now⟩],
          order_items := db.order_items ++
            [⟨item_id, order_id, product.id, quantity, product.price⟩] }
        (db2, orderReply phone4 product.name quantity
          (product.price * (quantity : Int)))

/-- ordered quantity of a product: `IFNULL(SUM(i.quantity), 0)`
(main.py:320-328). -/
def orderedQty (items : List OrderItemRow) (pid : Nat) : Nat :=
  (items.filter (fun i => i.product_id == pid)).foldl
    (fun a i => a + i.quantity) 0

/-- `remaining = base_stock - ordered` (main.py:339). -/
def stockRemaining (base_stock ordered : Int) : Int := base_stock - ordered

/-- the status cell of the product table (main.py:340-342): 판매중
("on sale") unless `base_stock > 0` and `remaining <= 0`, then 품절
("sold out"). -/
def stockStatus (base_stock ordered : Int) : List Char :=
  if 0 < base_stock ∧ stockRemaining base_stock ordered ≤ 0
  then "품절".toList else "판매중".toList

/-- partial-update request body `ProductUpdate` (main.py:76-80). -/
structure ProductUpdateReq where
  name : Option (List Char)
  price : Option Int
  base_stock : Option Int
  is_active : Option Bool
deriving DecidableEq

/-- applying the provided fields of an update to one row
(main.py:477-488, 495). -/
def applyUpdate (u : ProductUpdateReq) (p : Product) : Product :=
  { p with
    name := u.name.getD p.name,
    price := u.price.getD p.price,
    base_stock := u.base_stock.getD p.base_stock,
    is_active := u.is_active.getD p.is_active }

/-- "no fields to update" message (main.py:492). -/
def noFieldsMsg : List Char := "변경할 값이 없습니다.".toList

/-- `update_product` (main.py:466-499).  Returns the new state and the
JSON result, modelled as a success flag plus optional message.  The SQL
`UPDATE products SET ... WHERE id = ?` touches every products row whose
id matches and nothing else; it reports success whether or not any row
matched. -/
def update_product (db : DB) (product_id : Nat) (u : ProductUpdateReq) :
    DB × (Bool × Option (List Char)) :=
  if u.name = none ∧ u.price = none ∧ u.base_stock = none ∧
      u.is_active = none then
    (db, (false, some noFieldsMsg))
  else
    let newProducts := db.products.map
      (fun p => if p.id = product_id then applyUpdate u p else p)
    ({ db with products := newProducts }, (true, none))

-- ------------------------------------------------------------------
-- theorems: character classes and basic list lemmas
-- ------------------------------------------------------------------

theorem isPySpace_of_digit {c : Char} (h : isDigitB c = true) :
    isPySpace c = false := by
  simp only [isDigitB, decide_eq_true_eq] at h
  simp only [isPySpace, decide_eq_false_iff_not]
  omega

theorem space_isPySpace : isPySpace ' ' = true := by decide

theorem dropWhile_cons_false {p : Char → Bool} {x : Char} (l : List Char)
    (h : p x = false) : List.dropWhile p (x :: l) = x :: l := by
  simp [List.dropWhile, h]

theorem dropWhile_head_false {p : Char → Bool} {l : List Char} {x : Char}
    {t : List Char} (h : List.dropWhile p l = x :: t) : p x = false := by
  induction l with
  | nil => simp [List.dropWhile] at h
  | cons a l ih =>
    by_cases hp : p a
    · simp [List.dropWhile, hp] at h
      exact ih h
    · simp [List.dropWhile, hp] at h
      rw [← h.1]
      exact eq_false_of_ne_true hp

/-- the part a `dropWhile` keeps is kept verbatim: the input splits as
dropped prefix ++ result. -/
theorem dropWhile_eq_append (p : Char → Bool) (l : List Char) :
    ∃ s, l = s ++ List.dropWhile p l :=
  ⟨l.takeWhile p, (List.takeWhile_append_dropWhile p l).symm⟩

theorem dropWhile_dropWhile (p : Char → Bool) (l : List Char) :
    List.dropWhile p (List.dropWhile p l) = List.dropWhile p l := by
  cases h : List.dropWhile p l with
  | nil => simp [List.dropWhile]
  | cons x t => exact dropWhile_cons_false t (dropWhile_head_false h)

/-- a nonempty block on which `p` fails everywhere stops `dropWhile`. -/
theorem dropWhile_append_false {p : Char → Bool} {l : List Char}
    (hne : l ≠ []) (hall : ∀ c ∈ l, p c = false) (r : List Char) :
    List.dropWhile p (l ++ r) = l ++ r := by
  cases l with
  | nil => exact absurd rfl hne
  | cons x t =>
    exact dropWhile_cons_false _ (hall x (List.mem_cons_self x t))

/-- a block on which `p` holds everywhere is skipped by `dropWhile`. -/
theorem dropWhile_append_true {p : Char → Bool} {w : List Char}
    (hall : ∀ c ∈ w, p c = true) (r : List Char) :
    List.dropWhile p (w ++ r) = List.dropWhile p r := by
  induction w with
  | nil => rfl
  | cons x t ih =>
    have hx : p x = true := hall x (List.mem_cons_self x t)
    simp only [List.cons_append, List.dropWhile, hx]
    exact ih (fun c hc => hall c (List.mem_cons_of_mem x hc))

/-- a list on which `p` fails everywhere is untouched by `dropWhile`. -/
theorem dropWhile_all_false {p : Char → Bool} {l : List Char}
    (hall : ∀ c ∈ l, p c = false) : List.dropWhile p l = l := by
  cases l with
  | nil => rfl
  | cons x t => exact dropWhile_cons_false t (hall x (List.mem_cons_self x t))

/-- `takeWhile` keeps an all-true block and stops at a false element. -/
theorem takeWhile_append_stop {p : Char → Bool} {w : List Char} {x : Char}
    (hall : ∀ c ∈ w, p c = true) (hx : p x = false) (r : List Char) :
    List.takeWhile p (w ++ x :: r) = w := by
  induction w with
  | nil => simp [List.takeWhile, hx]
  | cons a t ih =>
    have ha : p a = true := hall a (List.mem_cons_self a t)
    simp only [List.cons_append, List.takeWhile, ha, List.append_eq]
    rw [ih (fun c hc => hall c (List.mem_cons_of_mem a hc))]

theorem mem_dropWhile {p : Char → Bool} {l : List Char} {c : Char}
    (h : c ∈ List.dropWhile p l) : c ∈ l := by
  obtain ⟨s, hs⟩ := dropWhile_eq_append p l
  rw [hs]
  exact List.mem_append_right s h

theorem mem_pyStrip {l : List Char} {c : Char} (h : c ∈ pyStrip l) : c ∈ l := by
  unfold pyStrip at h
  rw [List.mem_reverse] at h
  have h1 := mem_dropWhile h
  rw [List.mem_reverse] at h1
  exact mem_dropWhile h1

/-- the head of a `pyStrip` result is not whitespace. -/
theorem pyStrip_head {l : List Char} {c : Char}
    (h : (pyStrip l).head? = some c) : isPySpace c = false := by
  unfold pyStrip at h
  rw [List.head?_reverse] at h
  cases hl : List.dropWhile isPySpace (List.dropWhile isPySpace l).reverse with
  | nil => rw [hl] at h; simp at h
  | cons x t =>
    rw [hl] at h
    have hx := dropWhile_head_false hl
    -- getLast? of x :: t is the last of the dropped list, which is the
    -- last of the original reverse, i.e. the head of the inner dropWhile
    obtain ⟨s, hs⟩ := dropWhile_eq_append isPySpace
      (List.dropWhile isPySpace l).reverse
    rw [hl] at hs
    have hlast : (s ++ x :: t).getLast? = (x :: t).getLast? :=
      List.getLast?_append_of_ne_nil s (List.cons_ne_nil x t)
    rw [← hs, List.getLast?_reverse] at hlast
    cases hd : List.dropWhile isPySpace l with
    | nil => rw [hd] at hs; simp at hs
    | cons y u =>
      have hy := dropWhile_head_false hd
      rw [hd] at hlast
      simp only [List.head?_cons] at hlast
      rw [← hlast, Option.some.injEq] at h
      rw [← h]
      exact hy

/-- the last character of a `pyStrip` result is not whitespace. -/
theorem pyStrip_getLast {l : List Char} {c : Char}
    (h : (pyStrip l).getLast? = some c) : isPySpace c = false := by
  unfold pyStrip at h
  rw [List.getLast?_reverse] at h
  cases hl : List.dropWhile isPySpace (List.dropWhile isPySpace l).reverse with
  | nil => rw [hl] at h; simp at h
  | cons x t =>
    have hx := dropWhile_head_false hl
    rw [hl] at h
    simp only [List.head?_cons, Option.some.injEq] at h
    rw [← h]
    exact hx

/-- stripping a string whose ends are not whitespace changes nothing. -/
theorem pyStrip_noop {l : List Char}
    (hh : ∀ c, l.head? = some c → isPySpace c = false)
    (hl : ∀ c, l.getLast? = some c → isPySpace c = false) :
    pyStrip l = l := by
  unfold pyStrip
  have h1 : List.dropWhile isPySpace l = l := by
    cases l with
    | nil => rfl
    | cons x t => exact dropWhile_cons_false t (hh x rfl)
  rw [h1]
  have h2 : List.dropWhile isPySpace l.reverse = l.reverse := by
    cases hr : l.reverse with
    | nil => rfl
    | cons x t =>
      refine dropWhile_cons_false t (hl x ?_)
      rw [← List.head?_reverse, hr, List.head?_cons]
  rw [h2, List.reverse_reverse]

theorem pyStrip_idem (l : List Char) : pyStrip (pyStrip l) = pyStrip l :=
  pyStrip_noop (fun _ h => pyStrip_head h) (fun _ h => pyStrip_getLast h)

-- ------------------------------------------------------------------
-- theorems: C1 / C9, the normalizer
-- ------------------------------------------------------------------

theorem normalize_no_space (s : List Char) {c : Char}
    (h : c ∈ normalize_name s) : c ≠ ' ' := by
  unfold normalize_name at h
  have := mem_pyStrip h
  rw [List.mem_filter] at this
  simpa using this.2

/-- C9: the normalizer is idempotent: for every string s,
normalize(normalize(s)) = normalize(s). -/
theorem C9_normalize_idempotent (s : List Char) :
    normalize_name (normalize_name s) = normalize_name s := by
  unfold normalize_name
  have hfilter : (normalize_name s).filter (fun c => c != ' ') =
      normalize_name s := by
    rw [List.filter_eq_self]
    intro a ha
    simpa using normalize_no_space s ha
  unfold normalize_name at hfilter
  rw [hfilter]
  exact pyStrip_idem _

/-- C1 (counterexample): the input "a\tb" contains a tab, which
`normalize_name` does not remove: the result still contains the
whitespace character `'\t'`, contradicting "the returned string contains
no whitespace character at all". -/
theorem C1_counterexample :
    '\t' ∈ normalize_name ['a', '\t', 'b'] ∧ isPySpace '\t' = true := by
  constructor
  · decide
  · decide

/-- C1 (amended): `normalize` removes every occurrence of the space
character U+0020 and trims leading/trailing whitespace: the result
contains no `' '`, and its first and last characters (when present) are
not whitespace.  Interior non-space whitespace (tabs, newlines) is kept. -/
theorem C1_normalize_amended (s : List Char) :
    (∀ c ∈ normalize_name s, c ≠ ' ') ∧
    (∀ c, (normalize_name s).head? = some c → isPySpace c = false) ∧
    (∀ c, (normalize_name s).getLast? = some c → isPySpace c = false) := by
  refine ⟨fun c hc => normalize_no_space s hc, ?_, ?_⟩
  · intro c hc; exact pyStrip_head hc
  · intro c hc; exact pyStrip_getLast hc

/-- witness for C1_normalize_amended at the concrete input " a b ". -/
theorem C1_normalize_amended_witness :
    ('a' ∈ normalize_name [' ', 'a', ' ', 'b', ' '] → 'a' ≠ ' ') ∧
    isPySpace 'a' = false ∧ isPySpace 'b' = false := by
  have h := C1_normalize_amended [' ', 'a', ' ', 'b', ' ']
  refine ⟨fun hm => h.1 'a' hm, ?_, ?_⟩
  · exact h.2.1 'a' (by decide)
  · exact h.2.2 'b' (by decide)

-- ------------------------------------------------------------------
-- theorems: generic find? / map helpers
-- ------------------------------------------------------------------

theorem map_eq_self_of {α : Type} (f : α → α) (l : List α)
    (h : ∀ a ∈ l, f a = a) : l.map f = l := by
  induction l with
  | nil => rfl
  | cons x t ih =>
    rw [List.map_cons, h x (List.mem_cons_self x t),
      ih (fun a ha => h a (List.mem_cons_of_mem x ha))]

theorem find?_eq_some_split {α : Type} (f : α → Bool) (l : List α) (a : α)
    (h : l.find? f = some a) :
    f a = true ∧ ∃ s t, l = s ++ a :: t ∧ ∀ b ∈ s, f b = false := by
  induction l with
  | nil => simp [List.find?] at h
  | cons x tl ih =>
    by_cases hx : f x
    · rw [List.find?_cons_of_pos tl hx] at h
      have hax : a = x := (Option.some.injEq _ _).mp h.symm
      subst hax
      exact ⟨hx, [], tl, rfl, by intro b hb; cases hb⟩
    · rw [List.find?_cons_of_neg tl hx] at h
      obtain ⟨hfa, s, t, hsplit, hall⟩ := ih h
      refine ⟨hfa, x :: s, t, by rw [hsplit, List.cons_append], ?_⟩
      intro b hb
      rcases List.mem_cons.mp hb with rfl | hbs
      · exact eq_false_of_ne_true hx
      · exact hall b hbs

theorem find?_isSome_of_mem {α : Type} (f : α → Bool) (l : List α) (a : α)
    (ha : a ∈ l) (hf : f a = true) : ∃ b, l.find? f = some b := by
  induction l with
  | nil => cases ha
  | cons x t ih =>
    by_cases hx : f x
    · exact ⟨x, List.find?_cons_of_pos t hx⟩
    · rcases List.mem_cons.mp ha with rfl | hat
      · rw [hf] at hx; exact absurd rfl hx
      · obtain ⟨b, hb⟩ := ih hat
        exact ⟨b, by rw [List.find?_cons_of_neg t hx, hb]⟩

-- ------------------------------------------------------------------
-- theorems: C5, the catalog matcher
-- ------------------------------------------------------------------

/-- C5: the matcher scans only products with `is_active = true` and
returns the first product in scan order whose normalized display name
equals the candidate exactly; whenever some active product carries the
normalized name the matcher finds one; and two inputs with identical
normalized forms resolve to the same product. -/
theorem C5_matcher (ps : List Product) (cand : List Char) :
    (∀ p, get_product_by_normalized_name cand ps = some p →
      p ∈ ps ∧ p.is_active = true ∧ normalize_name p.name = cand ∧
      ∃ l r, ps.filter (fun x => x.is_active) = l ++ p :: r ∧
        ∀ x ∈ l, normalize_name x.name ≠ cand) ∧
    ((∃ p ∈ ps, p.is_active = true ∧ normalize_name p.name = cand) →
      ∃ p, get_product_by_normalized_name cand ps = some p) ∧
    (∀ s1 s2 : List Char, normalize_name s1 = normalize_name s2 →
      get_product_by_normalized_name (normalize_name s1) ps =
        get_product_by_normalized_name (normalize_name s2) ps) := by
  refine ⟨?_, ?_, ?_⟩
  · intro p hp
    unfold get_product_by_normalized_name at hp
    obtain ⟨hfp, s, t, hsplit, hall⟩ := find?_eq_some_split _ _ _ hp
    have hmemf : p ∈ ps.filter (fun x => x.is_active) := by
      rw [hsplit]
      exact List.mem_append_right s (List.mem_cons_self p t)
    have hmem := List.mem_filter.mp hmemf
    refine ⟨hmem.1, hmem.2, by simpa using hfp, s, t, hsplit, ?_⟩
    intro x hx
    have := hall x hx
    simpa using this
  · rintro ⟨p, hmem, hact, hnorm⟩
    unfold get_product_by_normalized_name
    refine find?_isSome_of_mem _ _ p ?_ ?_
    · exact List.mem_filter.mpr ⟨hmem, hact⟩
    · simpa using hnorm
  · intro s1 s2 h
    rw [h]

/-- witness for C5_matcher: a concrete catalog where the differently
spaced name 콜 라 matches the candidate 콜라. -/
theorem C5_matcher_witness :
    ∃ p, get_product_by_normalized_name ['콜', '라']
      [⟨1, ['콜', ' ', '라'], 1000, 5, true⟩] = some p :=
  (C5_matcher [⟨1, ['콜', ' ', '라'], 1000, 5, true⟩] ['콜', '라']).2.1
    ⟨⟨1, ['콜', ' ', '라'], 1000, 5, true⟩, by decide, by decide, by decide⟩

-- ------------------------------------------------------------------
-- theorems: C6, the stock summary boundary
-- ------------------------------------------------------------------

/-- C6: in the stock summary `remaining = baseStock - orderedQty`, and
the status is 품절 ("sold out") exactly when `baseStock > 0` and
`remaining ≤ 0`; in particular `baseStock = 0`, `orderedQty = 5` yields
판매중 ("on sale") with remaining −5. -/
theorem C6_stock_status (b o : Int) :
    stockRemaining b o = b - o ∧
    (stockStatus b o = "품절".toList ↔ 0 < b ∧ b - o ≤ 0) ∧
    stockStatus 0 5 = "판매중".toList ∧ stockRemaining 0 5 = -5 := by
  refine ⟨rfl, ?_, by decide, by decide⟩
  unfold stockStatus stockRemaining
  by_cases h : 0 < b ∧ b - o ≤ 0
  · rw [if_pos h]
    simp [h]
  · rw [if_neg h]
    constructor
    · intro heq
      exact absurd heq (by decide)
    · intro hc
      exact absurd hc h

/-- witness for C6_stock_status at baseStock 0, orderedQty 5. -/
theorem C6_stock_status_witness :
    stockStatus 0 5 = "판매중".toList ∧ stockRemaining 0 5 = -5 :=
  ⟨(C6_stock_status 0 5).2.2.1, (C6_stock_status 0 5).2.2.2⟩

-- ------------------------------------------------------------------
-- theorems: C7, no state change on Unrecognized / ProductNotFound
-- ------------------------------------------------------------------

/-- C7: when the text fails the parse grammar (and is no lookup), or
when the parsed candidate matches no active product, the handler
returns the fixed plain-text message and the state — in particular the
orders and order_items stores — is unchanged. -/
theorem C7_no_state_change (db : DB) (now text : List Char) :
    (is_order_check_text (pyStrip text) = none →
      parse_order_text (pyStrip text) = none →
      kakao_order db now text = (db, helpMsg)) ∧
    (∀ p4 cand q,
      is_order_check_text (pyStrip text) = none →
      parse_order_text (pyStrip text) = some (p4, cand, q) →
      get_product_by_normalized_name cand db.products = none →
      kakao_order db now text = (db, notFoundMsg)) := by
  constructor
  · intro h1 h2
    unfold kakao_order
    simp only [h1, h2]
  · intro p4 cand q h1 h2 h3
    unfold kakao_order
    simp only [h1, h2, h3]

/-- witness for C7_no_state_change: "hello" is unrecognized, and
"1234 콜라 2" finds no product in the empty catalog; neither changes
the state. -/
theorem C7_no_state_change_witness :
    kakao_order ⟨[], [], []⟩ [] "hello".toList = (⟨[], [], []⟩, helpMsg) ∧
    kakao_order ⟨[], [], []⟩ [] "1234 콜라 2".toList =
      (⟨[], [], []⟩, notFoundMsg) := by
  constructor
  · exact (C7_no_state_change ⟨[], [], []⟩ [] "hello".toList).1
      (by decide) (by decide)
  · exact (C7_no_state_change ⟨[], [], []⟩ [] "1234 콜라 2".toList).2
      "1234".toList "콜라".toList 2 (by decide) (by decide) (by decide)

-- ------------------------------------------------------------------
-- theorems: C8, price captured at order time, immune to updates
-- ------------------------------------------------------------------

/-- C8: a recorded OrderItem copies the matched product's current price
as its unit price, and `update_product` (the only catalog mutation)
never touches order_items, so previously recorded unit prices are
unchanged by any later price update. -/
theorem C8_price_capture (db : DB) (now text p4 cand : List Char) (q : Nat)
    (prod : Product)
    (h1 : is_order_check_text (pyStrip text) = none)
    (h2 : parse_order_text (pyStrip text) = some (p4, cand, q))
    (h3 : get_product_by_normalized_name cand db.products = some prod) :
    (kakao_order db now text).1.order_items =
      db.order_items ++ [⟨db.order_items.length + 1, db.orders.length + 1,
        prod.id, q, prod.price⟩] ∧
    (∀ (db2 : DB) (pid : Nat) (u : ProductUpdateReq),
      (update_product db2 pid u).1.order_items = db2.order_items) := by
  constructor
  · unfold kakao_order
    simp only [h1, h2, h3]
  · intro db2 pid u
    unfold update_product
    by_cases h : u.name = none ∧ u.price = none ∧ u.base_stock = none ∧
        u.is_active = none
    · rw [if_pos h]
    · rw [if_neg h]

/-- witness for C8_price_capture: one product priced 2000; the order
"1234 콜라 2" records unit price 2000. -/
theorem C8_price_capture_witness :
    (kakao_order ⟨[⟨1, "콜라".toList, 2000, 10, true⟩], [], []⟩
        "t0".toList "1234 콜라 2".toList).1.order_items =
      [] ++ [⟨1, 1, 1, 2, 2000⟩] ∧
    (∀ (db2 : DB) (pid : Nat) (u : ProductUpdateReq),
      (update_product db2 pid u).1.order_items = db2.order_items) :=
  C8_price_capture ⟨[⟨1, "콜라".toList, 2000, 10, true⟩], [], []⟩
    "t0".toList "1234 콜라 2".toList "1234".toList "콜라".toList 2
    ⟨1, "콜라".toList, 2000, 10, true⟩ (by decide) (by decide) (by decide)

-- ------------------------------------------------------------------
-- theorems: C10, update of a missing product id reports success
-- ------------------------------------------------------------------

/-- C10: a partial update with at least one field always reports
success; when no product carries the target id it changes no stored
row, and the result value is the same `success = true` result a real
update returns — the missing-id case is not distinguishable. -/
theorem C10_update_missing_product (db : DB) (pid : Nat)
    (u : ProductUpdateReq)
    (hfield : ¬(u.name = none ∧ u.price = none ∧ u.base_stock = none ∧
      u.is_active = none))
    (hmiss : ∀ p ∈ db.products, p.id ≠ pid) :
    (update_product db pid u).2 = (true, none) ∧
    (update_product db pid u).1 = db ∧
    (∀ db2 : DB, (update_product db2 pid u).2 = (true, none)) := by
  refine ⟨?_, ?_, ?_⟩
  · unfold update_product
    rw [if_neg hfield]
  · unfold update_product
    rw [if_neg hfield]
    have hmap : db.products.map
        (fun p => if p.id = pid then applyUpdate u p else p) = db.products := by
      refine map_eq_self_of _ _ ?_
      intro a ha
      rw [if_neg (hmiss a ha)]
    simp only [hmap]
  · intro db2
    unfold update_product
    rw [if_neg hfield]

/-- witness for C10_update_missing_product: price update on id 9 with a
catalog holding only id 7. -/
theorem C10_update_missing_product_witness :
    (update_product ⟨[⟨7, "콜라".toList, 2000, 10, true⟩], [], []⟩ 9
        ⟨none, some 1500, none, none⟩).2 = (true, none) ∧
    (update_product ⟨[⟨7, "콜라".toList, 2000, 10, true⟩], [], []⟩ 9
        ⟨none, some 1500, none, none⟩).1 =
      ⟨[⟨7, "콜라".toList, 2000, 10, true⟩], [], []⟩ := by
  have h := C10_update_missing_product
    ⟨[⟨7, "콜라".toList, 2000, 10, true⟩], [], []⟩ 9
    ⟨none, some 1500, none, none⟩ (by decide) (by decide)
  exact ⟨h.1, h.2.1⟩

-- ------------------------------------------------------------------
-- theorems: pySplit lemmas
-- ------------------------------------------------------------------

/-- splitting an all-whitespace string flushes only the current token. -/
theorem pySplitAux_ws_all {w : List Char}
    (hall : ∀ c ∈ w, isPySpace c = true) :
    ∀ cur, pySplitAux w cur = if cur = [] then [] else [cur.reverse] := by
  induction w with
  | nil => intro cur; rfl
  | cons c t ih =>
    intro cur
    have hc : isPySpace c = true := hall c (List.mem_cons_self c t)
    have iht := ih (fun x hx => hall x (List.mem_cons_of_mem c hx)) []
    by_cases hcur : cur = []
    · simp [pySplitAux, hc, hcur, iht]
    · simp [pySplitAux, hc, hcur, iht]

/-- an all-whitespace suffix does not change the split. -/
theorem pySplitAux_ws_suffix {w : List Char}
    (hall : ∀ c ∈ w, isPySpace c = true) :
    ∀ l cur, pySplitAux (l ++ w) cur = pySplitAux l cur := by
  intro l
  induction l with
  | nil =>
    intro cur
    rw [List.nil_append, pySplitAux_ws_all hall cur]
    rfl
  | cons c t ih =>
    intro cur
    by_cases hc : isPySpace c
    · by_cases hcur : cur = [] <;> simp [pySplitAux, hc, hcur, ih]
    · simp [pySplitAux, hc, ih]

/-- a whitespace-free block is accumulated into the current token. -/
theorem pySplitAux_token {w : List Char}
    (hall : ∀ c ∈ w, isPySpace c = false) :
    ∀ l cur, pySplitAux (w ++ l) cur = pySplitAux l (w.reverse ++ cur) := by
  induction w with
  | nil => intro l cur; rfl
  | cons c t ih =>
    intro l cur
    have hc : isPySpace c = false := hall c (List.mem_cons_self c t)
    have iht := ih (fun x hx => hall x (List.mem_cons_of_mem c hx)) l (c :: cur)
    simp only [List.cons_append, pySplitAux, hc, Bool.false_eq_true,
      if_false, List.reverse_cons, List.append_assoc,
      List.singleton_append, List.append_eq, List.nil_append]
    exact iht

/-- splitting text that starts with a whitespace-free word followed by a
space yields that word as first token. -/
theorem pySplit_token_cons {w : List Char} (hne : w ≠ [])
    (hall : ∀ c ∈ w, isPySpace c = false) (rest : List Char) :
    pySplit (w ++ ' ' :: rest) = w :: pySplit rest := by
  unfold pySplit
  rw [pySplitAux_token hall (' ' :: rest) [], List.append_nil]
  have hwr : w.reverse ≠ [] := by
    simpa [List.reverse_eq_nil_iff] using hne
  simp [pySplitAux, space_isPySpace, hwr]

/-- a single whitespace-free word splits to itself. -/
theorem pySplit_single {w : List Char} (hne : w ≠ [])
    (hall : ∀ c ∈ w, isPySpace c = false) : pySplit w = [w] := by
  unfold pySplit
  have h := pySplitAux_token hall [] []
  rw [List.append_nil] at h
  rw [h, List.append_nil]
  have hwr : w.reverse ≠ [] := by
    simpa [List.reverse_eq_nil_iff] using hne
  simp [pySplitAux, hwr]

/-- leading whitespace does not change the split. -/
theorem pySplit_dropWhile (l : List Char) :
    pySplit (List.dropWhile isPySpace l) = pySplit l := by
  induction l with
  | nil => rfl
  | cons c t ih =>
    by_cases hc : isPySpace c
    · have hstep : List.dropWhile isPySpace (c :: t) =
          List.dropWhile isPySpace t := by
        simp [List.dropWhile, hc]
      rw [hstep, ih]
      simp [pySplit, pySplitAux, hc]
    · have hstep : List.dropWhile isPySpace (c :: t) = c :: t := by
        simp [List.dropWhile, hc]
      rw [hstep]

/-- Python split is insensitive to stripping: split(strip(l)) = split(l). -/
theorem pySplit_pyStrip (l : List Char) : pySplit (pyStrip l) = pySplit l := by
  have h1 : pySplit (List.dropWhile isPySpace l) = pySplit l :=
    pySplit_dropWhile l
  set A := List.dropWhile isPySpace l with hA
  have hdecomp : A.reverse = List.takeWhile isPySpace A.reverse ++
      List.dropWhile isPySpace A.reverse :=
    (List.takeWhile_append_dropWhile _ _).symm
  have hA2 : A = (List.dropWhile isPySpace A.reverse).reverse ++
      (List.takeWhile isPySpace A.reverse).reverse := by
    calc A = A.reverse.reverse := (List.reverse_reverse A).symm
    _ = (List.takeWhile isPySpace A.reverse ++
          List.dropWhile isPySpace A.reverse).reverse := by rw [← hdecomp]
    _ = _ := by rw [List.reverse_append]
  have hwsuf : ∀ c ∈ (List.takeWhile isPySpace A.reverse).reverse,
      isPySpace c = true := by
    intro c hc
    exact List.mem_takeWhile_imp (List.mem_reverse.mp hc)
  have h2 : pySplit A = pySplit (pyStrip l) := by
    conv_lhs => rw [hA2]
    unfold pySplit
    rw [pySplitAux_ws_suffix hwsuf]
    rfl
  rw [← h2, h1]

-- ------------------------------------------------------------------
-- theorems: C3, lookup classification
-- ------------------------------------------------------------------

/-- the lookup recognizer agrees with the claim-side condition. -/
theorem is_order_check_spec (t p4 : List Char) :
    is_order_check_text (pyStrip t) = some p4 ↔ specLookupB t p4 = true := by
  simp only [is_order_check_text, specLookupB]
  rw [pyStrip_idem, pySplit_pyStrip]
  cases pySplit t with
  | nil => simp
  | cons t0 rest =>
    by_cases h1 : t0.length == 4
    · by_cases h2 : t0.all isDigitB
      · by_cases h3 : (containsSub kwOrderConfirm rest.flatten ||
            (containsSub kwOrder rest.flatten &&
              containsSub kwConfirm rest.flatten)) = true
        · simp only [h1, h2, h3, Bool.and_true, Bool.true_and, if_true,
            Option.some.injEq]
          exact beq_iff_eq.symm
        · simp [h1, h2, h3]
      · simp [h1, h2]
    · simp [h1]

/-- C3: the handler checks lookup before order parsing and it takes
precedence; the utterance is classified as LookupCommand(phone4) iff
after splitting on whitespace there is at least one token, the first
token is exactly 4 digits (phone4), and the concatenation of the rest
contains 주문확인, or both 주문 and 확인 in either order. -/
theorem C3_lookup_iff (text p4 : List Char) :
    interpret text = Interp.lookup p4 ↔ specLookupB text p4 = true := by
  unfold interpret
  cases h : is_order_check_text (pyStrip text) with
  | some q =>
    simp only [h]
    constructor
    · intro he
      have hq : q = p4 := by
        cases he
        rfl
      rw [hq] at h
      exact (is_order_check_spec text p4).mp h
    · intro hs
      have h2 := (is_order_check_spec text p4).mpr hs
      rw [h] at h2
      have : q = p4 := (Option.some.injEq _ _).mp h2
      rw [this]
  | none =>
    simp only [h]
    constructor
    · intro he
      exfalso
      cases hp : parse_order_text (pyStrip text) with
      | none => rw [hp] at he; cases he
      | some v =>
        rw [hp] at he
        obtain ⟨a, b, c⟩ := v
        cases he
    · intro hs
      have h2 := (is_order_check_spec text p4).mpr hs
      rw [h] at h2
      cases h2

/-- witness for C3_lookup_iff: "1234 주문확인" is a lookup command. -/
theorem C3_lookup_iff_witness :
    interpret "1234 주문확인".toList = Interp.lookup "1234".toList :=
  (C3_lookup_iff "1234 주문확인".toList "1234".toList).mpr (by decide)

-- ------------------------------------------------------------------
-- theorems: substring-test lemmas
-- ------------------------------------------------------------------

theorem isPrefixOf_append_self (l r : List Char) :
    l.isPrefixOf (l ++ r) = true :=
  List.isPrefixOf_iff_prefix.mpr (List.prefix_append l r)

theorem nil_isPrefixOf (l : List Char) : List.isPrefixOf [] l = true := by
  cases l <;> rfl

theorem containsSub_iff (pat l : List Char) :
    containsSub pat l = true ↔ ∃ s t, l = s ++ pat ++ t := by
  induction l with
  | nil =>
    simp only [containsSub, List.isEmpty_iff]
    constructor
    · intro h
      exact ⟨[], [], by rw [h]; rfl⟩
    · rintro ⟨s, t, h⟩
      rcases List.append_eq_nil.mp h.symm with ⟨hsp, ht⟩
      exact (List.append_eq_nil.mp hsp).2
  | cons c t ih =>
    simp only [containsSub, Bool.or_eq_true, ih]
    constructor
    · rintro (hp | ⟨s, u, hsu⟩)
      · obtain ⟨u, hu⟩ := List.isPrefixOf_iff_prefix.mp hp
        exact ⟨[], u, by rw [List.nil_append]; exact hu.symm⟩
      · exact ⟨c :: s, u, by rw [hsu]; simp⟩
    · rintro ⟨s, u, hsu⟩
      cases s with
      | nil =>
        left
        rw [List.nil_append] at hsu
        exact List.isPrefixOf_iff_prefix.mpr ⟨u, hsu.symm⟩
      | cons a s2 =>
        right
        rw [List.cons_append] at hsu
        injection hsu with h1 h2
        exact ⟨s2, u, h2⟩

/-- a prefix test of a digit-free pattern ignores an all-digit suffix. -/
theorem isPrefixOf_append_digits (d : List Char)
    (hd : ∀ c ∈ d, isDigitB c = true) :
    ∀ pat : List Char, (∀ c ∈ pat, isDigitB c = false) →
    ∀ x : List Char, pat.isPrefixOf (x ++ d) = pat.isPrefixOf x := by
  intro pat
  induction pat with
  | nil =>
    intro _ x
    rw [nil_isPrefixOf, nil_isPrefixOf]
  | cons a pt ih =>
    intro hpat x
    cases x with
    | nil =>
      rw [List.nil_append]
      cases d with
      | nil => rfl
      | cons b db =>
        have hb := hd b (List.mem_cons_self b db)
        have ha := hpat a (List.mem_cons_self a pt)
        have hab : (a == b) = false := by
          rw [beq_eq_false_iff_ne]
          intro he
          rw [he, hb] at ha
          cases ha
        simp [List.isPrefixOf, hab]
    | cons y x2 =>
      rw [List.cons_append]
      show (a == y && pt.isPrefixOf (x2 ++ d)) = (a == y && pt.isPrefixOf x2)
      rw [ih (fun c hc => hpat c (List.mem_cons_of_mem a hc)) x2]

/-- a nonempty digit-free pattern does not occur in an all-digit string. -/
theorem containsSub_digits_false {pat : List Char} (hne : pat ≠ [])
    (hpat : ∀ c ∈ pat, isDigitB c = false) :
    ∀ d, (∀ c ∈ d, isDigitB c = true) → containsSub pat d = false := by
  intro d
  induction d with
  | nil =>
    intro _
    simp [containsSub, List.isEmpty_iff, hne]
  | cons b db ih =>
    intro hd
    have hdb : ∀ c ∈ db, isDigitB c = true :=
      fun c hc => hd c (List.mem_cons_of_mem b hc)
    have h1 : pat.isPrefixOf (b :: db) = false := by
      have h2 := isPrefixOf_append_digits (b :: db) hd pat hpat []
      rw [List.nil_append] at h2
      rw [h2]
      cases pat with
      | nil => exact absurd rfl hne
      | cons u v => rfl
    show (pat.isPrefixOf (b :: db) || containsSub pat db) = false
    rw [h1, ih hdb]
    rfl

/-- occurrence of a nonempty digit-free pattern is unaffected by
appending an all-digit string. -/
theorem containsSub_append_digits {pat : List Char} (hne : pat ≠ [])
    (hpat : ∀ c ∈ pat, isDigitB c = false) :
    ∀ (x d : List Char), (∀ c ∈ d, isDigitB c = true) →
      containsSub pat (x ++ d) = containsSub pat x := by
  intro x
  induction x with
  | nil =>
    intro d hd
    rw [List.nil_append, containsSub_digits_false hne hpat d hd]
    cases pat with
    | nil => exact absurd rfl hne
    | cons a pt => rfl
  | cons c x2 ih =>
    intro d hd
    rw [List.cons_append]
    show (pat.isPrefixOf (c :: (x2 ++ d)) || containsSub pat (x2 ++ d)) =
      (pat.isPrefixOf (c :: x2) || containsSub pat x2)
    have h1 : pat.isPrefixOf (c :: (x2 ++ d)) = pat.isPrefixOf (c :: x2) := by
      have h2 := isPrefixOf_append_digits d hd pat hpat (c :: x2)
      rw [List.cons_append] at h2
      exact h2
    rw [h1, ih d hd]

/-- an occurrence of a concatenated pattern gives occurrences of both
halves. -/
theorem containsSub_split {a b l : List Char}
    (h : containsSub (a ++ b) l = true) :
    containsSub a l = true ∧ containsSub b l = true := by
  obtain ⟨s, t, hst⟩ := (containsSub_iff _ _).mp h
  constructor
  · refine (containsSub_iff _ _).mpr ⟨s, b ++ t, ?_⟩
    rw [hst]
    simp [List.append_assoc]
  · refine (containsSub_iff _ _).mpr ⟨s ++ a, t, ?_⟩
    rw [hst]
    simp [List.append_assoc]

-- ------------------------------------------------------------------
-- theorems: decimal numeral lemmas
-- ------------------------------------------------------------------

theorem natDigitsAux_acc :
    ∀ n fuel acc, n < fuel → natDigitsAux fuel n acc = natDigits n ++ acc := by
  intro n
  induction n using Nat.strong_induction_on with
  | _ n ih =>
    intro fuel acc hlt
    cases fuel with
    | zero => omega
    | succ f =>
      by_cases h10 : n < 10
      · simp [natDigitsAux, natDigits, h10]
      · rw [show natDigitsAux (f + 1) n acc =
            natDigitsAux f (n / 10) (Char.ofNat (48 + n % 10) :: acc) from by
          simp [natDigitsAux, h10]]
        have hd1 : n / 10 < n := Nat.div_lt_self (by omega) (by omega)
        rw [ih (n / 10) hd1 f _ (by omega)]
        rw [show natDigits n =
            natDigitsAux n (n / 10) [Char.ofNat (48 + n % 10)] from by
          simp [natDigits, natDigitsAux, h10]]
        rw [ih (n / 10) hd1 n _ hd1]
        rw [List.append_assoc]
        rfl

theorem natDigits_step (n : Nat) :
    natDigits n = if n < 10 then [Char.ofNat (48 + n % 10)]
      else natDigits (n / 10) ++ [Char.ofNat (48 + n % 10)] := by
  by_cases h : n < 10
  · simp [natDigits, natDigitsAux, h]
  · rw [if_neg h]
    rw [show natDigits n =
        natDigitsAux n (n / 10) [Char.ofNat (48 + n % 10)] from by
      simp [natDigits, natDigitsAux, h]]
    have hd1 : n / 10 < n := Nat.div_lt_self (by omega) (by omega)
    rw [natDigitsAux_acc (n / 10) n _ hd1]

theorem natDigits_ne_nil (n : Nat) : natDigits n ≠ [] := by
  rw [natDigits_step n]
  by_cases h : n < 10
  · simp [h]
  · simp [h]

theorem digit_char_isDigit {m : Nat} (hm : m < 10) :
    isDigitB (Char.ofNat (48 + m)) = true := by
  interval_cases m <;> decide

theorem digit_char_val {m : Nat} (hm : m < 10) :
    (Char.ofNat (48 + m)).toNat = 48 + m := by
  interval_cases m <;> decide

theorem natDigits_all_digits : ∀ n, ∀ c ∈ natDigits n, isDigitB c = true := by
  intro n
  induction n using Nat.strong_induction_on with
  | _ n ih =>
    intro c hc
    rw [natDigits_step n] at hc
    by_cases h : n < 10
    · rw [if_pos h] at hc
      simp only [List.mem_singleton] at hc
      rw [hc]
      exact digit_char_isDigit (Nat.mod_lt _ (by omega))
    · rw [if_neg h] at hc
      rcases List.mem_append.mp hc with h1 | h2
      · exact ih (n / 10) (Nat.div_lt_self (by omega) (by omega)) c h1
      · simp only [List.mem_singleton] at h2
        rw [h2]
        exact digit_char_isDigit (Nat.mod_lt _ (by omega))

theorem digitsVal_append_last (l : List Char) (c : Char) :
    digitsVal (l ++ [c]) = digitsVal l * 10 + (c.toNat - 48) := by
  unfold digitsVal
  rw [List.foldl_append]
  rfl

theorem digitsVal_natDigits : ∀ n, digitsVal (natDigits n) = n := by
  intro n
  induction n using Nat.strong_induction_on with
  | _ n ih =>
    rw [natDigits_step n]
    by_cases h : n < 10
    · rw [if_pos h]
      show digitsVal [Char.ofNat (48 + n % 10)] = n
      have hv := digit_char_val (Nat.mod_lt n (show 0 < 10 by omega))
      unfold digitsVal
      simp only [List.foldl_cons, List.foldl_nil, Nat.zero_mul, Nat.zero_add]
      omega
    · rw [if_neg h, digitsVal_append_last,
        ih (n / 10) (Nat.div_lt_self (by omega) (by omega)),
        digit_char_val (Nat.mod_lt n (show 0 < 10 by omega))]
      omega

-- ------------------------------------------------------------------
-- theorems: removeFirst / stripQtyTail lemmas
-- ------------------------------------------------------------------

theorem removeFirst_append {pat : List Char} (hne : pat ≠ [])
    (rest : List Char) : removeFirst pat (pat ++ rest) = rest := by
  cases pat with
  | nil => exact absurd rfl hne
  | cons a pt =>
    have hp2 : (a :: pt).isPrefixOf (a :: (pt ++ rest)) = true :=
      isPrefixOf_append_self (a :: pt) rest
    have h3 : (a :: (pt ++ rest)).drop (a :: pt).length = rest :=
      List.drop_left (a :: pt) rest
    show removeFirst (a :: pt) (a :: (pt ++ rest)) = rest
    simp only [removeFirst, hp2, if_true]
    exact h3

/-- a reversed string that starts with a non-whitespace, non-개 character
is unchanged by the quantity-tail stripper. -/
theorem stripQtyTail_stable {l : List Char} {c0 : Char} {t0 : List Char}
    (hl : l = c0 :: t0) (hws : isPySpace c0 = false) (hg : c0 ≠ '개') :
    stripQtyTail l = l := by
  subst hl
  simp only [stripQtyTail]
  rw [dropWhile_cons_false t0 hws]
  simp [hg]

-- ------------------------------------------------------------------
-- theorems: C2, the candidate-derivation pipeline
-- ------------------------------------------------------------------

/-- C2 (counterexample): on "1234 cola 02" the matched trailing digit
run is "02" but the parser deletes only "2" — the decimal of the parsed
value — so the candidate keeps the zero: the code yields "cola0" while
the claimed derivation (remove the exact matched run "02") yields
"cola". -/
theorem C2_counterexample :
    parse_order_text "1234 cola 02".toList =
      some ("1234".toList, "cola0".toList, 2) ∧
    candidateSpecC2 "1234 cola 02".toList = some "cola".toList ∧
    "cola0".toList ≠ normalize_name "cola".toList := by
  refine ⟨by decide, by decide, by decide⟩

/-- C2 (amended): the candidate is derived from the trimmed text by
removing the first occurrence of phone4, then removing at the end the
DECIMAL NUMERAL OF THE PARSED QUANTITY VALUE (the matched run with its
leading zeros dropped) plus the optional unit-word/whitespace tail, then
every remaining 개, then trimming; an empty remainder means the input is
Unrecognized, and otherwise the parser returns the normalized remainder. -/
theorem C2_candidate_amended (text : List Char) :
    (parse_order_text text = none ↔ candidateAmendedC2 text = none) ∧
    (∀ p4 cand q, parse_order_text text = some (p4, cand, q) →
      ∃ t, candidateAmendedC2 text = some t ∧ t ≠ [] ∧
        cand = normalize_name t) := by
  simp only [parse_order_text, candidateAmendedC2]
  cases hfp : findPhone4 (pyStrip text) with
  | none => simp
  | some phone4 =>
    cases hq : qtyDigits (pyStrip text) with
    | none => simp
    | some d =>
      by_cases h : pyStrip ((subQtyEnd (natDigits (digitsVal d))
          (removeFirst phone4 (pyStrip text))).filter (fun c => c != '개')) = []
      · simp [h]
      · simp only [h, if_false, if_neg h]
        constructor
        · simp
        · intro p4 cand q heq
          have h2 := (Option.some.injEq _ _).mp heq
          refine ⟨pyStrip ((subQtyEnd (natDigits (digitsVal d))
            (removeFirst phone4 (pyStrip text))).filter (fun c => c != '개')),
            rfl, h, ?_⟩
          have := congrArg (fun x : List Char × List Char × Nat => x.2.1) h2
          simpa using this.symm

/-- witness for C2_candidate_amended on the concrete order text
"1234 콜라제로 2". -/
theorem C2_candidate_amended_witness :
    ∃ t, candidateAmendedC2 "1234 콜라제로 2".toList = some t ∧ t ≠ [] ∧
      "콜라제로".toList = normalize_name t :=
  (C2_candidate_amended "1234 콜라제로 2".toList).2
    "1234".toList "콜라제로".toList 2 (by decide)

-- ------------------------------------------------------------------
-- theorems: C4, the parser round-trip
-- ------------------------------------------------------------------

/-- C4 (counterexample): 개나리 is a product name with no digits and no
whitespace, yet the round-trip fails: the parser's defensive cleanup
deletes the unit-word character 개 from the name, so "1234 개나리 2" is
interpreted as an order for 나리, not for normalize("개나리"). -/
theorem C4_counterexample :
    interpret "1234 개나리 2".toList =
      Interp.order "1234".toList "나리".toList 2 ∧
    Interp.order "1234".toList "나리".toList 2 ≠
      Interp.order "1234".toList (normalize_name "개나리".toList) 2 :=
  ⟨by decide, by decide⟩

/-- C4 (amended): for every 4-digit phone4, every nonempty product name
p containing no digit, no whitespace, no occurrence of the unit-word
character 개, and not containing both lookup fragments 주문 and 확인,
and every quantity q ≥ 0 (including 0), the text
phone4 ++ " " ++ p ++ " " ++ q is interpreted as
OrderCommand(phone4, normalize(p), q). -/
theorem C4_roundtrip (d1 d2 d3 d4 : Char) (p : List Char) (q : Nat)
    (hd1 : isDigitB d1 = true) (hd2 : isDigitB d2 = true)
    (hd3 : isDigitB d3 = true) (hd4 : isDigitB d4 = true)
    (hp0 : p ≠ [])
    ( _hpd : ∀ c ∈ p, isDigitB c = false)
    (hpw : ∀ c ∈ p, isPySpace c = false)
    (hpg : '개' ∉ p)
    (hpk : ¬(containsSub kwOrder p = true ∧ containsSub kwConfirm p = true)) :
    interpret ([d1, d2, d3, d4] ++ (' ' :: (p ++ (' ' :: natDigits q)))) =
      Interp.order [d1, d2, d3, d4] (normalize_name p) q := by
  have hN0 : natDigits q ≠ [] := natDigits_ne_nil q
  have hNd : ∀ c ∈ natDigits q, isDigitB c = true := natDigits_all_digits q
  have hNw : ∀ c ∈ natDigits q, isPySpace c = false :=
    fun c hc => isPySpace_of_digit (hNd c hc)
  have hphd : ∀ c ∈ [d1, d2, d3, d4], isDigitB c = true := by
    intro c hc
    simp only [List.mem_cons, List.not_mem_nil, or_false] at hc
    rcases hc with rfl | rfl | rfl | rfl <;> assumption
  have hphw : ∀ c ∈ [d1, d2, d3, d4], isPySpace c = false :=
    fun c hc => isPySpace_of_digit (hphd c hc)
  -- the input is already stripped
  have hform : [d1, d2, d3, d4] ++ (' ' :: (p ++ (' ' :: natDigits q))) =
      ([d1, d2, d3, d4] ++ ' ' :: p ++ [' ']) ++ natDigits q := by
    simp
  have hstrip : pyStrip ([d1, d2, d3, d4] ++
      (' ' :: (p ++ (' ' :: natDigits q)))) =
      [d1, d2, d3, d4] ++ (' ' :: (p ++ (' ' :: natDigits q))) := by
    apply pyStrip_noop
    · intro c hc
      simp only [List.cons_append, List.head?_cons, Option.some.injEq] at hc
      rw [← hc]
      exact isPySpace_of_digit hd1
    · intro c hc
      rw [hform, List.getLast?_append_of_ne_nil _ hN0] at hc
      exact isPySpace_of_digit (hNd c (List.mem_of_mem_getLast? hc))
  -- tokenization
  have hsplit : pySplit ([d1, d2, d3, d4] ++
      (' ' :: (p ++ (' ' :: natDigits q)))) =
      [[d1, d2, d3, d4], p, natDigits q] := by
    rw [pySplit_token_cons (by simp) hphw (p ++ (' ' :: natDigits q))]
    rw [pySplit_token_cons hp0 hpw (natDigits q)]
    rw [pySplit_single hN0 hNw]
  -- the lookup check fails: keywords cannot occur
  have hkOC : containsSub kwOrderConfirm (p ++ natDigits q) = false := by
    rw [containsSub_append_digits (by decide) (by decide) p (natDigits q) hNd]
    cases hoc : containsSub kwOrderConfirm p
    · rfl
    · exfalso
      have hoc2 : containsSub (kwOrder ++ kwConfirm) p = true := hoc
      exact hpk (containsSub_split hoc2)
  have hkO : containsSub kwOrder (p ++ natDigits q) = containsSub kwOrder p :=
    containsSub_append_digits (by decide) (by decide) p (natDigits q) hNd
  have hkC : containsSub kwConfirm (p ++ natDigits q) =
      containsSub kwConfirm p :=
    containsSub_append_digits (by decide) (by decide) p (natDigits q) hNd
  have hAnd : (containsSub kwOrder p && containsSub kwConfirm p) = false := by
    cases h1 : containsSub kwOrder p
    · rfl
    · cases h2 : containsSub kwConfirm p
      · rfl
      · exact absurd ⟨h1, h2⟩ hpk
  have hio : is_order_check_text (pyStrip ([d1, d2, d3, d4] ++
      (' ' :: (p ++ (' ' :: natDigits q))))) = none := by
    rw [hstrip]
    simp only [is_order_check_text]
    rw [hstrip, hsplit]
    simp only [List.flatten_cons, List.flatten_nil, List.append_nil]
    simp [hd1, hd2, hd3, hd4, hkOC, hkO, hkC, hAnd]
  -- phone extraction
  have hphone : findPhone4 ([d1, d2, d3, d4] ++
      (' ' :: (p ++ (' ' :: natDigits q)))) = some [d1, d2, d3, d4] := by
    simp [findPhone4, hd1, hd2, hd3, hd4]
  -- quantity extraction
  have hrev : ([d1, d2, d3, d4] ++
      (' ' :: (p ++ (' ' :: natDigits q)))).reverse =
      (natDigits q).reverse ++
        (' ' :: (p.reverse ++ (' ' :: [d4, d3, d2, d1]))) := by
    simp
  obtain ⟨c0, t0, hc0⟩ : ∃ c0 t0, (natDigits q).reverse = c0 :: t0 := by
    cases hNr : (natDigits q).reverse with
    | nil => exact absurd (by rwa [List.reverse_eq_nil_iff] at hNr) hN0
    | cons a b => exact ⟨a, b, rfl⟩
  have hc0d : isDigitB c0 = true := by
    have hmem : c0 ∈ (natDigits q).reverse := by
      rw [hc0]
      exact List.mem_cons_self c0 t0
    exact hNd c0 (List.mem_reverse.mp hmem)
  have hc0w : isPySpace c0 = false := isPySpace_of_digit hc0d
  have hc0g : c0 ≠ '개' := by
    intro he
    rw [he] at hc0d
    exact absurd hc0d (by decide)
  have hqty : qtyDigits ([d1, d2, d3, d4] ++
      (' ' :: (p ++ (' ' :: natDigits q)))) = some (natDigits q) := by
    simp only [qtyDigits]
    rw [hrev]
    have hl1 : (natDigits q).reverse ++
        (' ' :: (p.reverse ++ (' ' :: [d4, d3, d2, d1]))) =
        c0 :: (t0 ++ (' ' :: (p.reverse ++ (' ' :: [d4, d3, d2, d1])))) := by
      rw [hc0]
      rfl
    rw [stripQtyTail_stable hl1 hc0w hc0g]
    rw [takeWhile_append_stop (fun c hc => hNd c (List.mem_reverse.mp hc))
      (by decide) _]
    have hNr : (natDigits q).reverse ≠ [] := by
      simpa [List.reverse_eq_nil_iff] using hN0
    simp [hNr]
  -- phone removal
  have hrem : removeFirst [d1, d2, d3, d4] ([d1, d2, d3, d4] ++
      (' ' :: (p ++ (' ' :: natDigits q)))) =
      ' ' :: (p ++ (' ' :: natDigits q)) :=
    removeFirst_append (by simp) _
  -- quantity removal
  have hrev2 : (' ' :: (p ++ (' ' :: natDigits q))).reverse =
      (natDigits q).reverse ++ (' ' :: (p.reverse ++ [' '])) := by
    simp
  have hsub : subQtyEnd (natDigits q) (' ' :: (p ++ (' ' :: natDigits q))) =
      ' ' :: (p ++ [' ']) := by
    simp only [subQtyEnd]
    rw [hrev2]
    have hl2 : (natDigits q).reverse ++ (' ' :: (p.reverse ++ [' '])) =
        c0 :: (t0 ++ (' ' :: (p.reverse ++ [' ']))) := by
      rw [hc0]
      rfl
    rw [stripQtyTail_stable hl2 hc0w hc0g]
    rw [show ((natDigits q).reverse.isPrefixOf ((natDigits q).reverse ++
      (' ' :: (p.reverse ++ [' '])))) = true from isPrefixOf_append_self _ _]
    rw [show (natDigits q).length = (natDigits q).reverse.length from
      (List.length_reverse _).symm]
    simp [List.drop_left]
  -- 개 removal is a no-op here
  have hfil : (' ' :: (p ++ [' '])).filter (fun c => c != '개') =
      ' ' :: (p ++ [' ']) := by
    rw [List.filter_eq_self]
    intro a ha
    rw [bne_iff_ne]
    intro he
    subst he
    rcases List.mem_cons.mp ha with h | h
    · exact absurd h (by decide)
    · rcases List.mem_append.mp h with h2 | h2
      · exact hpg h2
      · simp only [List.mem_singleton] at h2
        exact absurd h2 (by decide)
  -- final trim
  have hstrip2 : pyStrip (' ' :: (p ++ [' '])) = p := by
    unfold pyStrip
    rw [show List.dropWhile isPySpace (' ' :: (p ++ [' '])) =
        List.dropWhile isPySpace (p ++ [' ']) from by
      simp [List.dropWhile, space_isPySpace]]
    rw [dropWhile_append_false hp0 hpw [' ']]
    rw [show (p ++ [' ']).reverse = ' ' :: p.reverse from by simp]
    rw [show List.dropWhile isPySpace (' ' :: p.reverse) =
        List.dropWhile isPySpace p.reverse from by
      simp [List.dropWhile, space_isPySpace]]
    rw [dropWhile_all_false (fun c hc => hpw c (List.mem_reverse.mp hc))]
    exact List.reverse_reverse p
  -- the parse result
  have hparse : parse_order_text ([d1, d2, d3, d4] ++
      (' ' :: (p ++ (' ' :: natDigits q)))) =
      some ([d1, d2, d3, d4], normalize_name p, q) := by
    simp only [parse_order_text, hstrip, hphone, hqty, digitsVal_natDigits]
    rw [hrem, hsub, hfil, hstrip2]
    simp [hp0]
  rw [hstrip] at hio
  simp only [interpret, hio, hstrip, hparse]

/-- witness for C4_roundtrip: "1234 콜라 0" (quantity 0 is accepted). -/
theorem C4_roundtrip_witness :
    interpret (['1', '2', '3', '4'] ++
      (' ' :: (['콜', '라'] ++ (' ' :: natDigits 0)))) =
      Interp.order ['1', '2', '3', '4'] (normalize_name ['콜', '라']) 0 :=
  C4_roundtrip '1' '2' '3' '4' ['콜', '라'] 0 (by decide) (by decide)
    (by decide) (by decide) (by decide) (by decide) (by decide) (by decide)
    (by decide)

-- concrete evaluation checks of the embedding against the Python behavior
example : parse_order_text "1234 콜라제로 2".toList =
    some ("1234".toList, "콜라제로".toList, 2) := by decide
example : parse_order_text "1234 콜 라 제 로 2개".toList =
    some ("1234".toList, "콜라제로".toList, 2) := by decide
example : parse_order_text "1234콜라제로2".toList =
    some ("1234".toList, "콜라제로".toList, 2) := by decide
example : parse_order_text "1234 cola 02".toList =
    some ("1234".toList, "cola0".toList, 2) := by decide
example : parse_order_text "12345".toList =
    some ("1234".toList, "5".toList, 12345) := by decide
example : parse_order_text "hello".toList = none := by decide
example : interpret "1234 주문확인".toList = .lookup "1234".toList := by decide
example : interpret "1234 주문 확인".toList = .lookup "1234".toList := by decide
example : interpret "1234 확인 주문요".toList = .lookup "1234".toList := by decide
example : interpret "12345 주문확인".toList = .unrecognized := by decide
example : interpret "1234 개나리 2".toList =
    .order "1234".toList "나리".toList 2 := by decide
example : interpret "1234 cola 0".toList =
    .order "1234".toList "cola".toList 0 := by decide

end KakaoOrder
